import Mathlib

/-!
# Verification of the Address Codec (EVM ↔ TRON address converter)

This file gives a shallow embedding, into Lean, of the address-conversion
core found in `address_converter/converter.py`, together with theorems
settling the specification claims about it.

Python strings are modelled as `List Char` restricted to their ASCII
behaviour (all concrete addresses handled by the code are ASCII).  A Python
value that may fail the `isinstance(_, str)` check is modelled by `PyVal`.
Python's `ValueError`s are modelled by the error type `ConvErr` through
`Except`.  The external Base58Check codec (the `base58` library collaborator)
is not part of the repository's sources; it is modelled from the spec, see
the definitions marked `Modelled from the spec`.
-/

set_option maxRecDepth 10000

/-! ## ASCII model of the Python string primitives used by the code -/

/-- The ASCII whitespace characters recognised by Python's `str.strip`,
`str.isspace` and `int(·, 16)` (space, tab, newline, vertical tab, form
feed, carriage return). -/
def isPySpace (c : Char) : Bool :=
  c = ' ' || c = '\t' || c = '\n' || c = '\x0b' || c = '\x0c' || c = '\r'

/-- ASCII behaviour of Python `str.lower` on a single character. -/
def pyLowerChar (c : Char) : Char :=
  if 'A' ≤ c ∧ c ≤ 'Z' then Char.ofNat (c.toNat + 32) else c

/-- Python `str.lower` (ASCII model). -/
def pyLower (s : List Char) : List Char := s.map pyLowerChar

/-- Drop whitespace from the end of a string (the suffix half of `str.strip`). -/
def dropEnd (s : List Char) : List Char :=
  (s.reverse.dropWhile isPySpace).reverse

/-- Python `str.strip()`: remove leading and trailing whitespace. -/
def pyStrip (s : List Char) : List Char :=
  dropEnd (s.dropWhile isPySpace)

/-- Python `str.isspace()`: non-empty and all whitespace. -/
def pyStrIsSpace (s : List Char) : Bool :=
  !s.isEmpty && s.all isPySpace

/-- Python `s.replace("0x", "")`: remove every non-overlapping occurrence of
the substring `0x`, scanning left to right. -/
def replace0x : List Char → List Char
  | [] => []
  | [c] => [c]
  | c₁ :: c₂ :: rest =>
    if c₁ = '0' ∧ c₂ = 'x' then replace0x rest
    else c₁ :: replace0x (c₂ :: rest)

/-- Whether the string contains an occurrence of the substring `0x`. -/
def has0x : List Char → Bool
  | [] => false
  | [_] => false
  | c₁ :: c₂ :: rest => (c₁ = '0' && c₂ = 'x') || has0x (c₂ :: rest)

/-- `pre` is an initial segment of `s` (Python `str.startswith`). -/
def strStarts : List Char → List Char → Bool
  | [], _ => true
  | _ :: _, [] => false
  | p :: ps, c :: cs => p = c && strStarts ps cs

/-- The cleaning pipeline `s.lower().replace("0x", "").strip()` that the
converter applies to candidate hex addresses. -/
def cleanHex (s : List Char) : List Char :=
  pyStrip (replace0x (pyLower s))

/-! ## Model of acceptance by Python `int(s, 16)`

Python's `int(s, 16)` accepts more than bare strings of hex digits: an
optional sign, an optional `0x`/`0X` prefix (optionally followed by one
underscore), and single underscores between digits, plus surrounding
whitespace.  This is modelled exactly (for ASCII input), because the code
uses `int(·, 16)` as its hex-validity check. -/

/-- ASCII hexadecimal digit (either case), as accepted by `int(·, 16)`. -/
def isHexDigitB (c : Char) : Bool :=
  ('0' ≤ c && c ≤ '9') || ('a' ≤ c && c ≤ 'f') || ('A' ≤ c && c ≤ 'F')

/-- Lowercase hexadecimal digit `[0-9a-f]`. -/
def isLHex (c : Char) : Bool :=
  ('0' ≤ c && c ≤ '9') || ('a' ≤ c && c ≤ 'f')

/-- After a first digit: a sequence of digits with single underscores
allowed only between digits. -/
def hexTail : List Char → Bool
  | [] => true
  | c :: rest =>
    if c = '_' then
      match rest with
      | [] => false
      | d :: rest₂ => isHexDigitB d && hexTail rest₂
    else isHexDigitB c && hexTail rest

/-- A non-empty digit group: a digit followed by a `hexTail`. -/
def hexBody : List Char → Bool
  | [] => false
  | c :: rest => isHexDigitB c && hexTail rest

/-- The part of an `int(·, 16)` literal after the optional sign: an optional
`0x`/`0X` prefix (optionally followed by a single underscore), then digits. -/
def pyIntBody (l : List Char) : Bool :=
  if strStarts ['0', 'x'] l || strStarts ['0', 'X'] l then
    hexBody (if strStarts ['_'] (l.drop 2) then (l.drop 2).drop 1 else l.drop 2)
  else hexBody l

/-- Whether Python `int(s, 16)` succeeds on the (ASCII) string `s`: strip
surrounding whitespace, allow one sign, then parse the body. -/
def pyIntHex16 (s : List Char) : Bool :=
  if strStarts ['+'] (dropEnd (s.dropWhile isPySpace)) ||
      strStarts ['-'] (dropEnd (s.dropWhile isPySpace)) then
    pyIntBody ((dropEnd (s.dropWhile isPySpace)).drop 1)
  else pyIntBody (dropEnd (s.dropWhile isPySpace))

/-! ## Hex ↔ bytes (Python `bytes.fromhex` / `bytes.hex`) -/

/-- Numeric value of one hexadecimal digit character. -/
def hexDigitVal (c : Char) : Option Nat :=
  if '0' ≤ c && c ≤ '9' then some (c.toNat - 48)
  else if 'a' ≤ c && c ≤ 'f' then some (c.toNat - 87)
  else if 'A' ≤ c && c ≤ 'F' then some (c.toNat - 55)
  else none

/-- Lowercase hexadecimal digit character for a value `< 16`. -/
def hexChar (n : Nat) : Char :=
  if n < 10 then Char.ofNat (48 + n) else Char.ofNat (87 + n)

/-- Python `bytes.hex()`: lowercase hex, two digits per byte. -/
def bytesToHex (b : List Nat) : List Char :=
  b.foldr (fun x acc => hexChar (x / 16 % 16) :: hexChar (x % 16) :: acc) []

/-- Python `bytes.fromhex`: two hex digits per byte, ASCII spaces allowed
between bytes; `none` models the raised `ValueError`. -/
def bytesFromHex : List Char → Option (List Nat)
  | [] => some []
  | c :: rest =>
    if c = ' ' then bytesFromHex rest
    else
      match rest with
      | [] => none
      | c₂ :: rest₂ => do
        let h ← hexDigitVal c
        let l ← hexDigitVal c₂
        let b ← bytesFromHex rest₂
        pure ((16 * h + l) :: b)

/-! ## SHA-256 (the cryptographic digest behind the Base58Check checksum)

Modelled from the spec: the glossary defines Base58Check as appending a
4-byte checksum derived from a cryptographic digest of the payload; the
digest used by the collaborating codec is double SHA-256.  Words are `Nat`s
reduced modulo `2^32`; bytes are `Nat`s `< 256`. -/

/-- Truncate to a 32-bit word. -/
def w32 (n : Nat) : Nat := n % 4294967296

/-- Right-rotation of a 32-bit word by `k` bits. -/
def shaRotr (k n : Nat) : Nat := n / 2 ^ k + n % 2 ^ k * 2 ^ (32 - k)

/-- SHA-256 small sigma 0. -/
def shaS0 (x : Nat) : Nat := shaRotr 7 x ^^^ shaRotr 18 x ^^^ x / 8

/-- SHA-256 small sigma 1. -/
def shaS1 (x : Nat) : Nat := shaRotr 17 x ^^^ shaRotr 19 x ^^^ x / 1024

/-- SHA-256 big Sigma 0. -/
def shaB0 (x : Nat) : Nat := shaRotr 2 x ^^^ shaRotr 13 x ^^^ shaRotr 22 x

/-- SHA-256 big Sigma 1. -/
def shaB1 (x : Nat) : Nat := shaRotr 6 x ^^^ shaRotr 11 x ^^^ shaRotr 25 x

/-- The 64 SHA-256 round constants (decimal). -/
def shaK : List Nat :=
  [1116352408, 1899447441, 3049323471, 3921009573, 961987163,
   1508970993, 2453635748, 2870763221, 3624381080, 310598401,
   607225278, 1426881987, 1925078388, 2162078206, 2614888103,
   3248222580, 3835390401, 4022224774, 264347078, 604807628,
   770255983, 1249150122, 1555081692, 1996064986, 2554220882,
   2821834349, 2952996808, 3210313671, 3336571891, 3584528711,
   113926993, 338241895, 666307205, 773529912, 1294757372,
   1396182291, 1695183700, 1986661051, 2177026350, 2456956037,
   2730485921, 2820302411, 3259730800, 3345764771, 3516065817,
   3600352804, 4094571909, 275423344, 430227734, 506948616,
   659060556, 883997877, 958139571, 1322822218, 1537002063,
   1747873779, 1955562222, 2024104815, 2227730452, 2361852424,
   2428436474, 2756734187, 3204031479, 3329325298]

/-- The SHA-256 initial hash state (decimal). -/
def shaH0 : List Nat :=
  [1779033703, 3144134277, 1013904242, 2773480762,
   1359893119, 2600822924, 528734635, 1541459225]

/-- SHA-256 message padding: append `0x80`, zeros up to 56 mod 64, then the
bit length as 8 big-endian bytes. -/
def shaPad (msg : List Nat) : List Nat :=
  msg ++ 128 :: List.replicate ((119 - msg.length % 64) % 64) 0 ++
    (List.range 8).map (fun i => 8 * msg.length / 2 ^ (8 * (7 - i)) % 256)

/-- Group bytes into big-endian 32-bit words. -/
def bytesToWordsBE : List Nat → List Nat
  | b₀ :: b₁ :: b₂ :: b₃ :: rest =>
    (((b₀ * 256 + b₁) * 256 + b₂) * 256 + b₃) :: bytesToWordsBE rest
  | _ => []

/-- Extend the 16 words of a chunk to the 64-entry message schedule. -/
def shaSchedule (w : List Nat) : List Nat :=
  (List.range 48).foldl
    (fun ws _ =>
      ws ++ [w32 (shaS1 (ws.getD (ws.length - 2) 0) + ws.getD (ws.length - 7) 0 +
        shaS0 (ws.getD (ws.length - 15) 0) + ws.getD (ws.length - 16) 0)])
    w

/-- One SHA-256 compression round; `kw` is the round constant plus the
schedule word. -/
def shaRound (st : List Nat) (kw : Nat) : List Nat :=
  match st with
  | [a, b, c, d, e, f, g, h] =>
    let t₁ := w32 (h + shaB1 e + ((e &&& f) ^^^ ((4294967295 - e) &&& g)) + kw)
    let t₂ := w32 (shaB0 a + ((a &&& b) ^^^ (a &&& c) ^^^ (b &&& c)))
    [w32 (t₁ + t₂), a, b, c, w32 (d + t₁), e, f, g]
  | st => st

/-- Compress one 16-word chunk into the running hash state. -/
def shaCompress (h : List Nat) (chunk : List Nat) : List Nat :=
  let fin := (List.zipWith (fun k w => w32 (k + w)) shaK (shaSchedule chunk)).foldl
    shaRound h
  List.zipWith (fun x y => w32 (x + y)) h fin

/-- Fold the compression over all 16-word chunks (fuel-based recursion). -/
def shaBlocks : Nat → List Nat → List Nat → List Nat
  | 0, h, _ => h
  | fuel + 1, h, words =>
    if words.isEmpty then h
    else shaBlocks fuel (shaCompress h (words.take 16)) (words.drop 16)

/-- SHA-256 of a byte string, as a 32-byte string. -/
def sha256 (msg : List Nat) : List Nat :=
  (shaBlocks (bytesToWordsBE (shaPad msg)).length shaH0
      (bytesToWordsBE (shaPad msg))).foldr
    (fun w acc => w / 16777216 % 256 :: w / 65536 % 256 :: w / 256 % 256 :: w % 256 :: acc)
    []

/-- Double SHA-256, the digest used for the Base58Check checksum. -/
def sha256d (b : List Nat) : List Nat := sha256 (sha256 b)

/-! ## Base58 and Base58Check

Modelled from the spec: the codec is an external collaborator providing
`encode : bytes → checksummed Base58 string` and `decode : string → bytes`,
where decode fails distinguishably on checksum mismatch or invalid-alphabet
input (spec §2, §6 and glossary).  It is not reimplemented by the
repository, so the definitions below follow the spec's description of
Base58Check: big-endian base-58 digits over the Bitcoin alphabet, leading
zero bytes encoded as leading `'1'` characters, with a 4-byte double-SHA-256
checksum appended before encoding. -/

/-- Fuel-based little-endian digits of `n` in base `b` (identical to
`Nat.digits b n` for `2 ≤ b`, but reducible by the kernel). -/
def natDigitsAux (b : Nat) : Nat → Nat → List Nat
  | 0, _ => []
  | fuel + 1, n => if n = 0 then [] else n % b :: natDigitsAux b fuel (n / b)

/-- Little-endian digits of `n` in base `b` (executable form of `Nat.digits`). -/
def natDigits (b n : Nat) : List Nat := natDigitsAux b n n

/-- The Base58 alphabet. -/
def b58Chars : List Char :=
  "123456789ABCDEFGHJKLMNPQRSTUVWXYZabcdefghijkmnopqrstuvwxyz".toList

/-- Character of a base-58 digit. -/
def b58Digit (d : Nat) : Char := b58Chars.getD d '1'

/-- Index search in the alphabet. -/
def b58ValAux : List Char → Char → Nat → Option Nat
  | [], _, _ => none
  | a :: r, c, i => if a = c then some i else b58ValAux r c (i + 1)

/-- Base-58 digit value of a character (`none` on invalid-alphabet input). -/
def b58Val (c : Char) : Option Nat := b58ValAux b58Chars c 0

/-- Map a fallible function over a list, failing if any element fails. -/
def mapOpt (f : α → Option β) : List α → Option (List β)
  | [] => some []
  | a :: r =>
    match f a, mapOpt f r with
    | some b, some rb => some (b :: rb)
    | _, _ => none

/-- Modelled from the spec: Base58 encoding of a byte string (leading zero
bytes become leading `'1'`s; the rest is the big-endian value in base 58). -/
def b58encode (b : List Nat) : List Char :=
  List.replicate (b.takeWhile (fun x => x == 0)).length '1' ++
    (natDigits 58 (Nat.ofDigits 256 b.reverse)).reverse.map b58Digit

/-- Modelled from the spec: Base58 decoding; fails on invalid-alphabet
input. -/
def b58decode (s : List Char) : Option (List Nat) :=
  match mapOpt b58Val s with
  | none => none
  | some vals =>
    some (List.replicate (vals.takeWhile (fun v => v == 0)).length 0 ++
      (natDigits 256 (Nat.ofDigits 58 vals.reverse)).reverse)

/-- Modelled from the spec: Base58Check encode — append the 4-byte
double-SHA-256 checksum, then Base58-encode. -/
def b58encode_check (b : List Nat) : List Char :=
  b58encode (b ++ (sha256d b).take 4)

/-- Modelled from the spec: Base58Check decode — Base58-decode, split off the
trailing 4 checksum bytes, and fail on checksum mismatch. -/
def b58decode_check (s : List Char) : Option (List Nat) :=
  match b58decode s with
  | none => none
  | some full =>
    if full.drop (full.length - 4) = (sha256d (full.take (full.length - 4))).take 4
    then some (full.take (full.length - 4))
    else none

/-! ## The converter (`address_converter/converter.py`) -/

/-- A Python argument that may or may not be a string (`isinstance` model). -/
inductive PyVal where
  | str (s : List Char)
  | nonString
  deriving DecidableEq

/-- The `ValueError`s raised by the converter, one constructor per distinct
message (the length error carries the reported actual length). -/
inductive ConvErr where
  | notAString
  | emptyAddress
  | invalidHexChars
  | badLength (n : Nat)
  | badFormat
  | convFailed
  | badBase58
  | decodeFailed
  | badTronHex
  deriving DecidableEq

/-- `normalize_evm_address` from `converter.py`: lower-case, remove every
`"0x"`, strip, check `int(·, 16)` acceptance, then check length 40. -/
def normalize_evm_address : PyVal → Except ConvErr (List Char)
  | .nonString => .error .notAString
  | .str s =>
    if s.isEmpty || pyStrIsSpace s then .error .emptyAddress
    else
      if pyIntHex16 (cleanHex s) then
        if (cleanHex s).length = 40 then .ok (cleanHex s)
        else .error (.badLength (cleanHex s).length)
      else .error .invalidHexChars

/-- `validate_tron_base58_address` from `converter.py`. -/
def validate_tron_base58_address : PyVal → Bool
  | .nonString => false
  | .str s =>
    if !strStarts ['T'] s then false
    else
      match b58decode_check s with
      | some d => d.length == 21 && d.getD 0 0 == 65
      | none => false

/-- `validate_tron_hex_address` from `converter.py`. -/
def validate_tron_hex_address : PyVal → Bool
  | .nonString => false
  | .str s =>
    if !strStarts ['4', '1'] (cleanHex s) then false
    else if (cleanHex s).length ≠ 42 then false
    else pyIntHex16 (cleanHex s)

/-- `evm_to_tron` from `converter.py`. -/
def evm_to_tron (evmAddress : PyVal) (outputFormat : List Char) : Except ConvErr (List Char) :=
  if outputFormat ≠ "base58".toList ∧ outputFormat ≠ "hex".toList then
    .error .badFormat
  else
    match normalize_evm_address evmAddress with
    | .error e => .error e
    | .ok n =>
      if outputFormat = "hex".toList then .ok ('4' :: '1' :: n)
      else
        match bytesFromHex ('4' :: '1' :: n) with
        | some bytes => .ok (b58encode_check bytes)
        | none => .error .convFailed

/-- `tron_to_evm` from `converter.py` (`addPfx` is the `add_prefix`
keyword argument, default `true`). -/
def tron_to_evm (tronAddress : PyVal) (addPfx : Bool) : Except ConvErr (List Char) :=
  match tronAddress with
  | .nonString => .error .notAString
  | .str s =>
    if s.isEmpty || pyStrIsSpace s then .error .emptyAddress
    else if strStarts ['T'] s then
      if !validate_tron_base58_address (.str s) then .error .badBase58
      else
        match b58decode_check s with
        | some bytes =>
          .ok (if addPfx then '0' :: 'x' :: (bytesToHex bytes).drop 2
               else (bytesToHex bytes).drop 2)
        | none => .error .decodeFailed
    else
      if !validate_tron_hex_address (.str s) then .error .badTronHex
      else
        .ok (if addPfx then '0' :: 'x' :: (cleanHex s).drop 2
             else (cleanHex s).drop 2)

/-- The classification outcomes of `get_address_type`. -/
inductive AddrType where
  | evm
  | tronBase58
  | tronHex
  deriving DecidableEq

/-- `get_address_type` from `converter.py`: strip, then classify by strict
precedence (TRON-hex, then TRON-Base58, then EVM); the `try/except
ValueError` around the checks is folded in — the only statement that can
raise is `normalize_evm_address`, whose failure yields `none`. -/
def get_address_type : PyVal → Option AddrType
  | .nonString => none
  | .str s₀ =>
    if (pyStrip s₀).isEmpty then none
    else
      if strStarts ['4', '1'] (cleanHex (pyStrip s₀)) &&
          (cleanHex (pyStrip s₀)).length == 42 &&
          validate_tron_hex_address (.str (cleanHex (pyStrip s₀))) then
        some .tronHex
      else if validate_tron_base58_address (.str (pyStrip s₀)) then
        some .tronBase58
      else if (cleanHex (pyStrip s₀)).length == 40 then
        match normalize_evm_address (.str (pyStrip s₀)) with
        | .ok _ => some .evm
        | .error _ => none
      else none

/-! ## Character-level facts -/

theorem charLe_iff {a b : Char} : a ≤ b ↔ a.toNat ≤ b.toNat := Iff.rfl

theorem charToNat_ofNat {n : Nat} (h : n < 55296) : (Char.ofNat n).toNat = n := by
  rw [Char.ofNat, dif_pos (Or.inl h)]
  rfl

theorem char_eq_of_toNat {c d : Char} (h : c.toNat = d.toNat) : c = d := by
  rw [← Char.ofNat_toNat c, h, Char.ofNat_toNat]

theorem isPySpace_false_of_ge {c : Char} (h : 33 ≤ c.toNat) : isPySpace c = false := by
  have h1 : c ≠ ' ' := fun he => by subst he; exact absurd h (by decide)
  have h2 : c ≠ '\t' := fun he => by subst he; exact absurd h (by decide)
  have h3 : c ≠ '\n' := fun he => by subst he; exact absurd h (by decide)
  have h4 : c ≠ '\x0b' := fun he => by subst he; exact absurd h (by decide)
  have h5 : c ≠ '\x0c' := fun he => by subst he; exact absurd h (by decide)
  have h6 : c ≠ '\r' := fun he => by subst he; exact absurd h (by decide)
  simp [isPySpace, h1, h2, h3, h4, h5, h6]

theorem char_ne_of_toNat {c : Char} {d : Char} (h : c.toNat ≠ d.toNat) : c ≠ d :=
  fun he => h (congrArg Char.toNat he)

theorem pyLowerChar_of_not_upper {c : Char} (h : ¬('A' ≤ c ∧ c ≤ 'Z')) : pyLowerChar c = c := by
  simp [pyLowerChar, h]

theorem charWs_lower (c : Char) : isPySpace (pyLowerChar c) = isPySpace c := by
  by_cases h : 'A' ≤ c ∧ c ≤ 'Z'
  · have hc : 65 ≤ c.toNat := charLe_iff.mp h.1
    have hz : c.toNat ≤ 90 := charLe_iff.mp h.2
    have hv : (Char.ofNat (c.toNat + 32)).toNat = c.toNat + 32 := charToNat_ofNat (by omega)
    rw [pyLowerChar, if_pos h, isPySpace_false_of_ge (by omega), isPySpace_false_of_ge (by omega)]
  · rw [pyLowerChar_of_not_upper h]

theorem pyLowerChar_idem (c : Char) : pyLowerChar (pyLowerChar c) = pyLowerChar c := by
  by_cases h : 'A' ≤ c ∧ c ≤ 'Z'
  · have hc : 65 ≤ c.toNat := charLe_iff.mp h.1
    have hz : c.toNat ≤ 90 := charLe_iff.mp h.2
    have hv : (Char.ofNat (c.toNat + 32)).toNat = c.toNat + 32 := charToNat_ofNat (by omega)
    have hin : pyLowerChar c = Char.ofNat (c.toNat + 32) := by rw [pyLowerChar, if_pos h]
    rw [hin]
    refine pyLowerChar_of_not_upper ?_
    rintro ⟨-, hle⟩
    have := charLe_iff.mp hle
    rw [hv, show ('Z' : Char).toNat = 90 from rfl] at this
    omega
  · rw [pyLowerChar_of_not_upper h, pyLowerChar_of_not_upper h]

theorem isLHex_bounds {c : Char} (h : isLHex c = true) :
    (48 ≤ c.toNat ∧ c.toNat ≤ 57) ∨ (97 ≤ c.toNat ∧ c.toNat ≤ 102) := by
  simp only [isLHex, Bool.or_eq_true, Bool.and_eq_true, decide_eq_true_eq] at h
  rcases h with ⟨h1, h2⟩ | ⟨h1, h2⟩
  · exact Or.inl ⟨charLe_iff.mp h1, charLe_iff.mp h2⟩
  · exact Or.inr ⟨charLe_iff.mp h1, charLe_iff.mp h2⟩

theorem isLHex_lower_fixed {c : Char} (h : isLHex c = true) : pyLowerChar c = c := by
  refine pyLowerChar_of_not_upper ?_
  rintro ⟨ha, hz⟩
  have ha' := charLe_iff.mp ha
  have hz' := charLe_iff.mp hz
  rw [show ('A' : Char).toNat = 65 from rfl] at ha'
  rw [show ('Z' : Char).toNat = 90 from rfl] at hz'
  rcases isLHex_bounds h with ⟨h1, h2⟩ | ⟨h1, h2⟩ <;> omega

theorem isLHex_not_ws {c : Char} (h : isLHex c = true) : isPySpace c = false := by
  rcases isLHex_bounds h with ⟨h1, _⟩ | ⟨h1, _⟩ <;> exact isPySpace_false_of_ge (by omega)

theorem isLHex_ne_x {c : Char} (h : isLHex c = true) : c ≠ 'x' := by
  refine char_ne_of_toNat ?_
  rw [show ('x' : Char).toNat = 120 from rfl]
  rcases isLHex_bounds h with ⟨_, h2⟩ | ⟨_, h2⟩ <;> omega

theorem isLHex_isHexDigitB {c : Char} (h : isLHex c = true) : isHexDigitB c = true := by
  simp only [isLHex, Bool.or_eq_true] at h
  simp only [isHexDigitB, Bool.or_eq_true]
  tauto

theorem isPySpace_ne_0_ne_x {c : Char} (h : isPySpace c = true) : c ≠ '0' ∧ c ≠ 'x' := by
  have hlt : ¬(33 ≤ c.toNat) := by
    intro hge
    rw [isPySpace_false_of_ge hge] at h
    exact Bool.false_ne_true h
  constructor
  · refine char_ne_of_toNat ?_
    rw [show ('0' : Char).toNat = 48 from rfl]
    omega
  · refine char_ne_of_toNat ?_
    rw [show ('x' : Char).toNat = 120 from rfl]
    omega

/-! ## Facts about `pyStrip`, `replace0x` and the cleaning pipeline -/

theorem dropWhile_ws_nil {t : List Char} (ht : ∀ c ∈ t, isPySpace c = true) :
    t.dropWhile isPySpace = [] := by
  induction t with
  | nil => rfl
  | cons c r ih =>
    rw [List.dropWhile_cons_of_pos (ht c (by simp))]
    exact ih fun c hc => ht c (by simp [hc])

theorem dropWhile_dropWhile (p : Char → Bool) (l : List Char) :
    (l.dropWhile p).dropWhile p = l.dropWhile p := by
  cases hd : l.dropWhile p with
  | nil => rfl
  | cons c r =>
    have := List.head?_dropWhile_not p l
    rw [hd] at this
    simp only [List.head?_cons] at this
    rw [List.dropWhile_cons_of_neg (by simp [this])]

theorem dropEnd_append_ws {v t : List Char} (ht : ∀ c ∈ t, isPySpace c = true) :
    dropEnd (v ++ t) = dropEnd v := by
  unfold dropEnd
  rw [List.reverse_append,
    List.dropWhile_append_of_pos (fun c hc => ht c (List.mem_reverse.mp hc))]

theorem dropEnd_prefix_decomp (l : List Char) :
    l = dropEnd l ++ (l.reverse.takeWhile isPySpace).reverse := by
  unfold dropEnd
  rw [← List.reverse_append, List.takeWhile_append_dropWhile, List.reverse_reverse]

theorem dropEnd_tail_ws (l : List Char) :
    ∀ c ∈ (l.reverse.takeWhile isPySpace).reverse, isPySpace c = true :=
  fun c hc => List.mem_takeWhile_imp (List.mem_reverse.mp hc)

theorem dropEnd_idem (l : List Char) : dropEnd (dropEnd l) = dropEnd l := by
  unfold dropEnd
  rw [List.reverse_reverse, dropWhile_dropWhile]

theorem dropWhile_dropEnd_of_dropWhile {m : List Char} (hm : m.dropWhile isPySpace = m) :
    (dropEnd m).dropWhile isPySpace = dropEnd m := by
  cases hde : dropEnd m with
  | nil => rfl
  | cons c r =>
    have hdm := dropEnd_prefix_decomp m
    rw [hde] at hdm
    have hhead : m.head? = some c := by rw [hdm]; rfl
    have hnot := List.head?_dropWhile_not isPySpace m
    rw [hm, hhead] at hnot
    rw [List.dropWhile_cons_of_neg (by simp [hnot])]

theorem pyStrip_idem (l : List Char) : pyStrip (pyStrip l) = pyStrip l := by
  unfold pyStrip
  rw [dropWhile_dropEnd_of_dropWhile (dropWhile_dropWhile isPySpace l), dropEnd_idem]

theorem has0x_eq_false {l : List Char} (h : ∀ c ∈ l, c ≠ 'x') : has0x l = false := by
  match l with
  | [] => rfl
  | [_] => rfl
  | c₁ :: c₂ :: rest =>
    have h2 : (c₂ = 'x' : Bool) = false := by simp [h c₂ (by simp)]
    rw [has0x, has0x_eq_false (fun c hc => h c (by simp at hc; simp [hc]))]
    simp [h2]

theorem replace0x_eq_self {l : List Char} (h : has0x l = false) : replace0x l = l := by
  match l with
  | [] => rfl
  | [c] => rfl
  | c₁ :: c₂ :: rest =>
    rw [has0x] at h
    simp only [Bool.or_eq_false_iff] at h
    rw [replace0x, if_neg (by
      rintro ⟨h1, h2⟩
      subst h1; subst h2
      simp at h)]
    rw [replace0x_eq_self h.2]

theorem replace0x_ws_append {a y : List Char} (h : ∀ c ∈ a, isPySpace c = true) :
    replace0x (a ++ y) = a ++ replace0x y := by
  match a with
  | [] => rfl
  | c :: a' =>
    have hc0 : c ≠ '0' := (isPySpace_ne_0_ne_x (h c (by simp))).1
    have ih := replace0x_ws_append (a := a') (y := y) (fun d hd => h d (by simp [hd]))
    cases hay : a' ++ y with
    | nil =>
      rcases List.append_eq_nil.mp hay with ⟨ha', hy⟩
      subst ha'; subst hy
      rfl
    | cons d w =>
      show replace0x (c :: (a' ++ y)) = c :: a' ++ replace0x y
      rw [hay, replace0x, if_neg (by rintro ⟨h1, -⟩; exact hc0 h1), ← hay, ih]
      rfl

theorem replace0x_append_ws {e t : List Char} (ht : ∀ c ∈ t, isPySpace c = true) :
    replace0x (e ++ t) = replace0x e ++ t := by
  match e with
  | [] =>
    rw [List.nil_append, replace0x_eq_self
      (has0x_eq_false fun c hc => (isPySpace_ne_0_ne_x (ht c hc)).2)]
    rfl
  | [c] =>
    cases t with
    | nil => rfl
    | cons d w =>
      show replace0x (c :: d :: w) = [c] ++ d :: w
      rw [replace0x, if_neg (by
        rintro ⟨-, h2⟩
        exact (isPySpace_ne_0_ne_x (ht d (by simp))).2 h2)]
      rw [replace0x_eq_self
        (has0x_eq_false fun e he => (isPySpace_ne_0_ne_x (ht e he)).2)]
      rfl
  | c₁ :: c₂ :: rest =>
    show replace0x (c₁ :: c₂ :: (rest ++ t)) = replace0x (c₁ :: c₂ :: rest) ++ t
    rw [replace0x, replace0x]
    by_cases h12 : c₁ = '0' ∧ c₂ = 'x'
    · rw [if_pos h12, if_pos h12, replace0x_append_ws (e := rest) ht]
    · rw [if_neg h12, if_neg h12]
      have := replace0x_append_ws (e := c₂ :: rest) (t := t) ht
      rw [List.cons_append] at this
      rw [this]
      rfl

theorem pyStrip_ws_pad {a u t : List Char} (ha : ∀ c ∈ a, isPySpace c = true)
    (ht : ∀ c ∈ t, isPySpace c = true) : pyStrip (a ++ (u ++ t)) = pyStrip u := by
  unfold pyStrip
  rw [List.dropWhile_append_of_pos ha, List.dropWhile_append]
  by_cases hu : (u.dropWhile isPySpace).isEmpty
  · rw [if_pos hu, dropWhile_ws_nil ht]
    rw [List.isEmpty_iff] at hu
    rw [hu]
  · rw [if_neg hu, dropEnd_append_ws ht]

theorem strip_replace_strip (m : List Char) :
    pyStrip (replace0x (pyStrip m)) = pyStrip (replace0x m) := by
  have hA : ∀ c ∈ m.takeWhile isPySpace, isPySpace c = true :=
    fun c hc => List.mem_takeWhile_imp hc
  have hT := dropEnd_tail_ws (m.dropWhile isPySpace)
  calc pyStrip (replace0x (pyStrip m))
      = pyStrip (replace0x (dropEnd (m.dropWhile isPySpace))) := rfl
    _ = pyStrip (m.takeWhile isPySpace ++
          (replace0x (dropEnd (m.dropWhile isPySpace)) ++
            ((m.dropWhile isPySpace).reverse.takeWhile isPySpace).reverse)) := by
        rw [pyStrip_ws_pad hA hT]
    _ = pyStrip (m.takeWhile isPySpace ++
          replace0x (dropEnd (m.dropWhile isPySpace) ++
            ((m.dropWhile isPySpace).reverse.takeWhile isPySpace).reverse)) := by
        rw [replace0x_append_ws hT]
    _ = pyStrip (m.takeWhile isPySpace ++ replace0x (m.dropWhile isPySpace)) := by
        rw [← dropEnd_prefix_decomp]
    _ = pyStrip (replace0x (m.takeWhile isPySpace ++ m.dropWhile isPySpace)) := by
        rw [replace0x_ws_append hA]
    _ = pyStrip (replace0x m) := by rw [List.takeWhile_append_dropWhile]

theorem pyLower_pyStrip (s : List Char) : pyLower (pyStrip s) = pyStrip (pyLower s) := by
  unfold pyStrip pyLower dropEnd
  rw [List.dropWhile_map, ← List.map_reverse, List.dropWhile_map, ← List.map_reverse]
  have : (isPySpace ∘ pyLowerChar) = isPySpace := funext charWs_lower
  rw [this]

theorem cleanHex_pyStrip (s : List Char) : cleanHex (pyStrip s) = cleanHex s := by
  unfold cleanHex
  rw [pyLower_pyStrip]
  have h1 : pyStrip (replace0x (pyStrip (pyLower s))) = pyStrip (replace0x (pyLower s)) :=
    strip_replace_strip (pyLower s)
  exact h1

/-! ## Characterisation of `normalize_evm_address` -/

theorem normalize_ok_elim {s n : List Char}
    (h : normalize_evm_address (.str s) = .ok n) :
    n = cleanHex s ∧ pyIntHex16 n = true ∧ n.length = 40 := by
  simp only [normalize_evm_address] at h
  split_ifs at h with h1 h2 h3
  · have hn : cleanHex s = n := by injection h
    exact ⟨hn.symm, hn ▸ h2, hn ▸ h3⟩

theorem normalize_nonstring : normalize_evm_address .nonString = .error .notAString := rfl

theorem mem_replace0x {c : Char} : ∀ {l : List Char}, c ∈ replace0x l → c ∈ l := by
  intro l
  match l with
  | [] => exact id
  | [d] => exact id
  | c₁ :: c₂ :: rest =>
    intro hc
    rw [replace0x] at hc
    split_ifs at hc with h12
    · exact List.mem_cons_of_mem _ (List.mem_cons_of_mem _ (mem_replace0x hc))
    · rcases List.mem_cons.mp hc with h | h
      · exact List.mem_cons.mpr (Or.inl h)
      · exact List.mem_cons_of_mem _ (mem_replace0x h)

theorem mem_pyStrip {c : Char} {l : List Char} (h : c ∈ pyStrip l) : c ∈ l := by
  unfold pyStrip dropEnd at h
  have h1 := List.mem_reverse.mp h
  have h2 := (List.dropWhile_sublist _).subset h1
  have h3 := List.mem_reverse.mp h2
  exact (List.dropWhile_sublist _).subset h3

theorem mem_cleanHex_lower_fixed {c : Char} {s : List Char} (h : c ∈ cleanHex s) :
    pyLowerChar c = c := by
  have h1 := mem_replace0x (mem_pyStrip h)
  unfold pyLower at h1
  rcases List.mem_map.mp h1 with ⟨a, -, ha⟩
  rw [← ha, pyLowerChar_idem]

theorem pyLower_fixed {n : List Char} (h : ∀ c ∈ n, pyLowerChar c = c) :
    pyLower n = n := by
  unfold pyLower
  rw [List.map_congr_left h]
  exact List.map_id' n

theorem cleanHex_stripped (s : List Char) : pyStrip (cleanHex s) = cleanHex s := by
  unfold cleanHex
  exact pyStrip_idem _

/-! ## Claims C2, C4, C5, C6, C7 -/

/-- C2: the claim states that every successful `normalize_evm_address` result
is 40 lowercase hex digits, equivalently that normalization fails whenever
the cleaned input is not exactly 40 valid hex characters.  The code violates
this: its hex-validity check is Python `int(·, 16)`, which also accepts a
leading sign, so the 40-character input `"-123456789abcdef123456789abcdef123456789"`
(a minus sign followed by 39 hex digits) is accepted and returned verbatim,
although it is not made of hex digits.  This theorem evaluates the code at
that failing input. -/
theorem C2_normalize_accepts_nonhex :
    normalize_evm_address (.str ("-123456789abcdef123456789abcdef123456789").toList) =
      .ok ("-123456789abcdef123456789abcdef123456789").toList ∧
    ("-123456789abcdef123456789abcdef123456789").toList.all isLHex = false := by
  constructor
  · rfl
  · decide

/-- C5: the claim states `validate_tron_hex_address` accepts exactly the
strings whose normalized form starts with `41`, has length 42 and consists
solely of hexadecimal characters.  The code violates the "solely
hexadecimal" part: its check is Python `int(·, 16)`, which accepts single
underscores between digits, so this 42-character string containing `'_'`
validates.  This theorem evaluates the code at that failing input. -/
theorem C5_validate_tron_hex_accepts_underscore :
    validate_tron_hex_address (.str ("4100000000000000000000000000000000000000_0").toList) = true ∧
    ("4100000000000000000000000000000000000000_0").toList.all isHexDigitB = false := by
  constructor
  · decide
  · decide

/-- C7: the claim states that a cleaned input containing a character outside
`[0-9a-fA-F]` fails with the invalid-hex-characters error even at length 40,
and that the length error occurs exactly on valid-hex inputs of wrong
length.  The code violates both directions, because the hex check is
`int(·, 16)`: the 40-character input containing `'_'` below succeeds
outright (no error at all), and `"-1ab"` — not valid hex — gets the length
error reporting 4 versus the expected 40.  The spec's own example
`normalize_evm_address("0x123")` (length error reporting 3) does hold. -/
theorem C7_hex_before_length_violated :
    normalize_evm_address (.str ("123456789abcdef123456789abcdef12345678_a").toList) =
      .ok ("123456789abcdef123456789abcdef12345678_a").toList ∧
    normalize_evm_address (.str ("-1ab").toList) = .error (.badLength 4) ∧
    normalize_evm_address (.str ("0x123").toList) = .error (.badLength 3) := by
  refine ⟨by rfl, by rfl, by rfl⟩

/-- C4: for every address accepted by `normalize_evm_address`,
`evm_to_tron` with output format `"hex"` returns exactly `"41"` prepended to
the normalized address, a 42-character string. -/
theorem C4_evm_to_tron_hex (a : PyVal) (n : List Char)
    (h : normalize_evm_address a = .ok n) :
    evm_to_tron a ("hex").toList = .ok ('4' :: '1' :: n) ∧
    ('4' :: '1' :: n).length = 42 := by
  have hfmt : ¬(("hex").toList ≠ ("base58").toList ∧ ("hex").toList ≠ ("hex").toList) := by
    rintro ⟨-, h2⟩
    exact h2 rfl
  constructor
  · simp only [evm_to_tron, if_neg hfmt, h, if_pos rfl, if_true]
  · match a with
    | .nonString => exact absurd h (by simp [normalize_nonstring])
    | .str s =>
      have := (normalize_ok_elim h).2.2
      simp [this]

/-- Witness for C4 at the spec's concrete example address. -/
theorem C4_evm_to_tron_hex_witness :
    evm_to_tron (.str ("0x123456789abcdef123456789abcdef123456789a").toList)
        ("hex").toList =
      .ok ('4' :: '1' :: ("123456789abcdef123456789abcdef123456789a").toList) ∧
    ('4' :: '1' :: ("123456789abcdef123456789abcdef123456789a").toList).length = 42 :=
  C4_evm_to_tron_hex _ _ (by rfl)

/-- C6: for every address argument (string or not) and every output format
outside `{base58, hex}`, `evm_to_tron` fails with the invalid-format error;
the format check precedes any use of the address, so no address-related
error can occur instead. -/
theorem C6_format_checked_first (a : PyVal) (fmt : List Char)
    (h1 : fmt ≠ ("base58").toList) (h2 : fmt ≠ ("hex").toList) :
    evm_to_tron a fmt = .error .badFormat := by
  unfold evm_to_tron
  rw [if_pos ⟨h1, h2⟩]

/-- Witness for C6: a non-string address with format `"xml"` produces the
format error, not an address error. -/
theorem C6_format_checked_first_witness :
    evm_to_tron .nonString ("xml").toList = .error .badFormat :=
  C6_format_checked_first .nonString ("xml").toList (by decide) (by decide)

/-! ## Claim C8 -/

/-- C8 counterexample: the claim (idempotence through re-prefixing) fails on
the code.  The input `"00xx12345678901234567890123456789012345678"` normalizes
successfully to `"0x12345678901234567890123456789012345678"` — the `replace("0x", "")`
scan of `00xx…` leaves a fresh `0x` behind, and `int(·, 16)` accepts the
`0x`-prefixed result — but re-normalizing `"0x" + that result` strips both
`"0x"` occurrences, leaving 38 characters, so the second application fails
with a length error instead of returning the same string. -/
theorem C8_idempotence_counterexample :
    normalize_evm_address (.str ("00xx12345678901234567890123456789012345678").toList) =
      .ok ("0x12345678901234567890123456789012345678").toList ∧
    normalize_evm_address
        (.str ('0' :: 'x' :: ("0x12345678901234567890123456789012345678").toList)) =
      .error (.badLength 38) :=
  ⟨rfl, rfl⟩

/-- C8 (amended): idempotence through re-prefixing holds for every input
whose normalized result contains no `"0x"` substring: if
`normalize_evm_address x = ok n` and `n` has no `0x` occurrence, then
normalizing `"0x" + n` succeeds and returns `n` again. -/
theorem C8_idempotent_normalization (x n : List Char)
    (h : normalize_evm_address (.str x) = .ok n) (h0x : has0x n = false) :
    normalize_evm_address (.str ('0' :: 'x' :: n)) = .ok n := by
  obtain ⟨hn, hint, hlen⟩ := normalize_ok_elim h
  have hlf : ∀ c ∈ n, pyLowerChar c = c := fun c hc =>
    mem_cleanHex_lower_fixed (s := x) (hn ▸ hc)
  have hclean : cleanHex ('0' :: 'x' :: n) = n := by
    unfold cleanHex
    have h1 : pyLower ('0' :: 'x' :: n) = '0' :: 'x' :: n := by
      unfold pyLower
      rw [List.map_cons, List.map_cons,
        show pyLowerChar '0' = '0' from rfl, show pyLowerChar 'x' = 'x' from rfl]
      have := pyLower_fixed hlf
      unfold pyLower at this
      rw [this]
    rw [h1, replace0x, if_pos ⟨rfl, rfl⟩, replace0x_eq_self h0x, hn, cleanHex_stripped]
  have hcond : (('0' :: 'x' :: n).isEmpty || pyStrIsSpace ('0' :: 'x' :: n)) = false := by
    simp [pyStrIsSpace, List.all_cons, show isPySpace '0' = false from rfl]
  simp only [normalize_evm_address, hcond, Bool.false_eq_true, if_false, hclean, hint,
    if_true, hn ▸ hlen, if_pos]
  rw [if_pos (hn ▸ hlen)]

/-- Witness for the amended C8 at the spec's example address. -/
theorem C8_idempotent_normalization_witness :
    normalize_evm_address
        (.str ('0' :: 'x' :: ("123456789abcdef123456789abcdef123456789a").toList)) =
      .ok ("123456789abcdef123456789abcdef123456789a").toList :=
  C8_idempotent_normalization
    ("0x123456789abcdef123456789abcdef123456789a").toList
    ("123456789abcdef123456789abcdef123456789a").toList (by rfl) (by decide)

/-! ## Claim C3 -/

theorem normalize_pyStrip {s : List Char} (hne : (pyStrip s).isEmpty = false) :
    normalize_evm_address (.str (pyStrip s)) = normalize_evm_address (.str s) := by
  have hsne : s.isEmpty = false := by
    cases s with
    | nil => exact absurd hne (by simp [pyStrip, dropEnd])
    | cons c r => rfl
  have hnallws : s.all isPySpace = false := by
    by_contra hall
    rw [Bool.not_eq_false] at hall
    have h1 : s.dropWhile isPySpace = [] :=
      dropWhile_ws_nil (fun c hc => List.all_eq_true.mp hall c hc)
    have h2 : pyStrip s = [] := by
      unfold pyStrip
      rw [h1]
      rfl
    rw [h2] at hne
    simp at hne
  have hcond : (s.isEmpty || pyStrIsSpace s) = false := by
    simp [hsne, pyStrIsSpace, hnallws]
  obtain ⟨c, r, hcr⟩ : ∃ c r, pyStrip s = c :: r := by
    cases h : pyStrip s with
    | nil => rw [h] at hne; simp at hne
    | cons c r => exact ⟨c, r, rfl⟩
  have hcws : isPySpace c = false := by
    have hh : (s.dropWhile isPySpace).head? = some c := by
      conv_lhs => rw [dropEnd_prefix_decomp (s.dropWhile isPySpace)]
      have hcr' : dropEnd (s.dropWhile isPySpace) = c :: r := hcr
      rw [hcr']
      rfl
    have hnot := List.head?_dropWhile_not isPySpace s
    rw [hh] at hnot
    exact hnot
  have hcond2 : ((pyStrip s).isEmpty || pyStrIsSpace (pyStrip s)) = false := by
    rw [hcr]
    simp [pyStrIsSpace, List.all_cons, hcws]
  simp only [normalize_evm_address, hcond, hcond2, Bool.false_eq_true, if_false,
    cleanHex_pyStrip]

/-- C3 reference classifier, written from the claim's wording: non-string or
blank input yields `none`; otherwise `tron_hex` when the normalized form of
the input (lower-cased, `0x` occurrences removed, trimmed) starts with `41`,
has length exactly 42 and passes the TRON-hex validator; else `tron_base58`
when the (trimmed) input passes the TRON-Base58 validator; else `evm` when
the normalized form has length exactly 40 and EVM normalization of the
original string succeeds; otherwise `none`. -/
def classify_spec : PyVal → Option AddrType
  | .nonString => none
  | .str s =>
    if (pyStrip s).isEmpty then none
    else
      if strStarts ['4', '1'] (cleanHex s) && (cleanHex s).length == 42 &&
          validate_tron_hex_address (.str (cleanHex s)) then some .tronHex
      else if validate_tron_base58_address (.str (pyStrip s)) then some .tronBase58
      else if (cleanHex s).length == 40 &&
          (normalize_evm_address (.str s)).toOption.isSome then some .evm
      else none

/-- C3: `get_address_type` is total (returns an `Option`, never raises: every
internal `ValueError` is caught) and agrees exactly with the claim's
precedence description `classify_spec` — TRON-hex first, then TRON-Base58,
then EVM, first satisfied check wins. -/
theorem C3_get_address_type_follows_spec (a : PyVal) :
    get_address_type a = classify_spec a := by
  cases a with
  | nonString => rfl
  | str s =>
    simp only [get_address_type, classify_spec]
    by_cases hemp : (pyStrip s).isEmpty
    · rw [if_pos hemp, if_pos hemp]
    · have hne : (pyStrip s).isEmpty = false := by
        rw [Bool.not_eq_true] at hemp
        exact hemp
      rw [if_neg hemp, if_neg hemp, cleanHex_pyStrip, normalize_pyStrip hne]
      cases hn : normalize_evm_address (.str s) with
      | ok v => simp [hn, Except.toOption]
      | error e => simp [hn, Except.toOption]

/-! ## Claim C9 -/

/-- C9: there is an input — a valid TRON Base58Check address preceded by a
space — that `get_address_type` classifies as `tron_base58` (it strips the
input before checking) but `tron_to_evm` rejects: `tron_to_evm` dispatches
on the untrimmed first character, so the leading space routes the input to
the hex branch, whose validation fails. -/
theorem C9_classify_convert_mismatch :
    get_address_type (.str (' ' :: ("TJCnKsPa7y5okkXvQAidZBzqx3QyQ6sxMW").toList)) =
      some .tronBase58 ∧
    tron_to_evm (.str (' ' :: ("TJCnKsPa7y5okkXvQAidZBzqx3QyQ6sxMW").toList)) true =
      .error .badTronHex := by
  constructor
  · rfl
  · rfl

/-! ## Digit-system lemmas for the Base58 codec -/

theorem natDigitsAux_eq {b : Nat} (hb : 2 ≤ b) :
    ∀ fuel n, n ≤ fuel → natDigitsAux b fuel n = Nat.digits b n := by
  intro fuel
  induction fuel with
  | zero =>
    intro n hn
    rw [Nat.le_zero.mp hn, Nat.digits_zero]
    rfl
  | succ f ih =>
    intro n hn
    by_cases h0 : n = 0
    · rw [h0, Nat.digits_zero]
      rfl
    · rw [natDigitsAux, if_neg h0, Nat.digits_def' (by omega : 1 < b) (Nat.pos_of_ne_zero h0)]
      rw [ih (n / b) (by
        have := Nat.div_lt_self (Nat.pos_of_ne_zero h0) (by omega : 1 < b)
        omega)]

theorem natDigits_eq {b : Nat} (hb : 2 ≤ b) (n : Nat) : natDigits b n = Nat.digits b n :=
  natDigitsAux_eq hb n n (Nat.le_refl n)

theorem ofDigits_lt {b : Nat} {l : List Nat} (hl : ∀ x ∈ l, x < b) (hb : 1 < b) :
    Nat.ofDigits b l < b ^ l.length :=
  Nat.ofDigits_lt_base_pow_length hb hl

theorem digits_getLast?_of_bound {b : Nat} (hb : 2 ≤ b) :
    ∀ (k d n : Nat), 0 < d → d < b → d * b ^ k ≤ n → n < (d + 1) * b ^ k →
      (Nat.digits b n).getLast? = some d := by
  intro k
  induction k with
  | zero =>
    intro d n hd hdb hle hlt
    simp only [pow_zero, mul_one] at hle hlt
    have hnd : n = d := by omega
    rw [hnd, Nat.digits_of_lt b d (by omega) hdb]
    rfl
  | succ k ih =>
    intro d n hd hdb hle hlt
    have hbpos : 0 < b := by omega
    have hnpos : 0 < n := by
      have h1 : 1 * b ^ (k + 1) ≤ d * b ^ (k + 1) :=
        Nat.mul_le_mul_right _ hd
      have h2 : 0 < b ^ (k + 1) := Nat.pos_pow_of_pos _ hbpos
      omega
    rw [Nat.digits_def' (by omega : 1 < b) hnpos]
    have hle' : d * b ^ k ≤ n / b := by
      rw [Nat.le_div_iff_mul_le hbpos]
      calc d * b ^ k * b = d * b ^ (k + 1) := by ring
        _ ≤ n := hle
    have hlt' : n / b < (d + 1) * b ^ k := by
      rw [Nat.div_lt_iff_lt_mul hbpos]
      calc n < (d + 1) * b ^ (k + 1) := hlt
        _ = (d + 1) * b ^ k * b := by ring
    have hrec := ih d (n / b) hd hdb hle' hlt'
    have hne : Nat.digits b (n / b) ≠ [] := by
      intro h
      rw [h] at hrec
      exact Option.noConfusion hrec
    cases hd2 : Nat.digits b (n / b) with
    | nil => exact absurd hd2 hne
    | cons x l =>
      rw [hd2] at hrec
      rw [List.getLast?_cons_cons, hrec]

/-! ## Alphabet lemmas -/

theorem b58ValAux_some :
    ∀ (l : List Char) (c : Char) (i v : Nat), b58ValAux l c i = some v →
      i ≤ v ∧ v - i < l.length ∧ l.getD (v - i) '1' = c := by
  intro l
  induction l with
  | nil => intro c i v h; exact absurd h (by simp [b58ValAux])
  | cons a r ih =>
    intro c i v h
    rw [b58ValAux] at h
    split_ifs at h with hac
    · have hv : v = i := (Option.some.injEq _ _).mp h.symm
      subst hv
      exact ⟨Nat.le_refl _, by simp, by simpa using hac⟩
    · obtain ⟨h1, h2, h3⟩ := ih c (i + 1) v h
      refine ⟨by omega, by simp; omega, ?_⟩
      have hvi : v - i = (v - (i + 1)) + 1 := by omega
      rw [hvi, List.getD_cons_succ]
      exact h3

theorem b58Val_some {c : Char} {v : Nat} (h : b58Val c = some v) :
    v < 58 ∧ b58Digit v = c := by
  obtain ⟨-, h2, h3⟩ := b58ValAux_some b58Chars c 0 v h
  rw [Nat.sub_zero] at h2 h3
  have hlen : b58Chars.length = 58 := by decide
  rw [hlen] at h2
  exact ⟨h2, h3⟩

theorem b58Val_b58Digit : ∀ d, d < 58 → b58Val (b58Digit d) = some d := by decide

theorem mapOpt_map_b58Digit {ds : List Nat} (h : ∀ d ∈ ds, d < 58) :
    mapOpt b58Val (ds.map b58Digit) = some ds := by
  induction ds with
  | nil => rfl
  | cons d r ih =>
    rw [List.map_cons, mapOpt, b58Val_b58Digit d (h d (by simp)),
      ih (fun x hx => h x (by simp [hx]))]

theorem mapOpt_b58Val_some :
    ∀ {s : List Char} {vs : List Nat}, mapOpt b58Val s = some vs →
      vs.map b58Digit = s ∧ ∀ v ∈ vs, v < 58 := by
  intro s
  induction s with
  | nil =>
    intro vs h
    have : vs = [] := by
      rw [mapOpt] at h
      exact ((Option.some.injEq _ _).mp h).symm
    subst this
    exact ⟨rfl, by simp⟩
  | cons c r ih =>
    intro vs h
    rw [mapOpt] at h
    cases hc : b58Val c with
    | none => rw [hc] at h; exact absurd h (by simp)
    | some v =>
      rw [hc] at h
      cases hr : mapOpt b58Val r with
      | none => rw [hr] at h; exact absurd h (by simp)
      | some rv =>
        rw [hr] at h
        have hvs : vs = v :: rv := ((Option.some.injEq _ _).mp h).symm
        subst hvs
        obtain ⟨ih1, ih2⟩ := ih hr
        obtain ⟨hv58, hvc⟩ := b58Val_some hc
        refine ⟨by rw [List.map_cons, hvc, ih1], ?_⟩
        intro x hx
        rcases List.mem_cons.mp hx with hx | hx
        · rw [hx]; exact hv58
        · exact ih2 x hx

/-! ## Byte-range and big-endian value lemmas -/

theorem foldr_bytes_lt (ws : List Nat) :
    ∀ x ∈ ws.foldr
      (fun w acc => w / 16777216 % 256 :: w / 65536 % 256 :: w / 256 % 256 :: w % 256 :: acc)
      [], x < 256 := by
  induction ws with
  | nil => simp
  | cons w r ih =>
    intro x hx
    simp only [List.foldr_cons, List.mem_cons] at hx
    rcases hx with h | h | h | h | h
    · rw [h]; exact Nat.mod_lt _ (by norm_num)
    · rw [h]; exact Nat.mod_lt _ (by norm_num)
    · rw [h]; exact Nat.mod_lt _ (by norm_num)
    · rw [h]; exact Nat.mod_lt _ (by norm_num)
    · exact ih x h

theorem sha256_mem_lt (m : List Nat) : ∀ x ∈ sha256 m, x < 256 :=
  foldr_bytes_lt _

theorem takeWhile_zero_nil {x : Nat} {r : List Nat} (hx : x ≠ 0) :
    (x :: r).takeWhile (fun v => v == 0) = [] :=
  List.takeWhile_cons_of_neg (by simp [hx])

theorem ofDigits_cons_reverse (b x : Nat) (r : List Nat) :
    Nat.ofDigits b (x :: r).reverse = Nat.ofDigits b r.reverse + b ^ r.length * x := by
  rw [List.reverse_cons, Nat.ofDigits_append, List.length_reverse, Nat.ofDigits_singleton]

/-! ## Base58 inversion lemmas -/

theorem b58decode_b58encode {full : List Nat} (hne : full ≠ [])
    (h0 : full.headD 0 ≠ 0) (hlt : ∀ x ∈ full, x < 256) :
    b58decode (b58encode full) = some full := by
  obtain ⟨x, r, rfl⟩ : ∃ x y, full = x :: y := by
    cases full with
    | nil => exact absurd rfl hne
    | cons x y => exact ⟨x, y, rfl⟩
  have hx0 : x ≠ 0 := by simpa using h0
  have hnpos : Nat.ofDigits 256 ((x :: r).reverse) ≠ 0 := by
    rw [ofDigits_cons_reverse]
    have hxlt : 0 < x := Nat.pos_of_ne_zero hx0
    have hppos : 0 < (256 : Nat) ^ r.length := Nat.pos_pow_of_pos _ (by norm_num)
    have : 0 < (256 : Nat) ^ r.length * x := Nat.mul_pos hppos hxlt
    omega
  set n := Nat.ofDigits 256 ((x :: r).reverse) with hn
  have hdne : Nat.digits 58 n ≠ [] := Nat.digits_ne_nil_iff_ne_zero.mpr hnpos
  have hdrevne : (Nat.digits 58 n).reverse ≠ [] := by
    simpa using hdne
  obtain ⟨y, t, hds⟩ : ∃ y t, (Nat.digits 58 n).reverse = y :: t := by
    cases h : (Nat.digits 58 n).reverse with
    | nil => exact absurd h hdrevne
    | cons y t => exact ⟨y, t, rfl⟩
  have hy : y ≠ 0 := by
    have h1 : (Nat.digits 58 n).getLast? = some y := by
      rw [List.getLast?_eq_head?_reverse, hds]
      rfl
    have h2 := Nat.getLast_digit_ne_zero 58 hnpos
    rw [List.getLast?_eq_getLast _ hdne] at h1
    rw [← (Option.some.injEq _ _).mp h1.symm] at h2
    exact fun hy0 => h2 (hy0 ▸ rfl)
  have hds58 : ∀ d ∈ (Nat.digits 58 n).reverse, d < 58 := fun d hd =>
    Nat.digits_lt_base (by norm_num) (List.mem_reverse.mp hd)
  -- evaluate the encoder
  have henc : b58encode (x :: r) = ((Nat.digits 58 n).reverse).map b58Digit := by
    unfold b58encode
    rw [takeWhile_zero_nil hx0, natDigits_eq (by norm_num), ← hn]
    rfl
  rw [henc]
  -- evaluate the decoder
  unfold b58decode
  rw [mapOpt_map_b58Digit hds58]
  show some
      (List.replicate
          ((((Nat.digits 58 n).reverse).takeWhile (fun v => v == 0)).length) 0 ++
        (natDigits 256 (Nat.ofDigits 58 ((Nat.digits 58 n).reverse).reverse)).reverse) =
    some (x :: r)
  have hz : ((Nat.digits 58 n).reverse).takeWhile (fun v => v == 0) = [] := by
    rw [hds]
    exact takeWhile_zero_nil hy
  rw [hz]
  have hofrev : Nat.ofDigits 58 ((Nat.digits 58 n).reverse).reverse = n := by
    rw [List.reverse_reverse, Nat.ofDigits_digits]
  rw [hofrev, natDigits_eq (by norm_num)]
  have hback : Nat.digits 256 n = (x :: r).reverse := by
    rw [hn]
    refine Nat.digits_ofDigits 256 (by norm_num) _ ?_ ?_
    · intro l hl
      exact hlt l (List.mem_reverse.mp hl)
    · intro hne'
      have h1 : ((x :: r).reverse).getLast? = some x := by
        rw [List.getLast?_eq_head?_reverse, List.reverse_reverse]
        rfl
      rw [List.getLast?_eq_getLast _ hne'] at h1
      rw [(Option.some.injEq _ _).mp h1]
      exact hx0
  rw [hback, List.reverse_reverse]
  simp

theorem b58encode_b58decode {s : List Char} {full : List Nat}
    (hdec : b58decode s = some full) (hT : strStarts ['T'] s = true) :
    b58encode full = s ∧ full ≠ [] ∧ full.headD 0 ≠ 0 ∧ ∀ x ∈ full, x < 256 := by
  obtain ⟨cs, rfl⟩ : ∃ cs, s = 'T' :: cs := by
    cases s with
    | nil => exact absurd hT (by simp [strStarts])
    | cons c cs =>
      rw [strStarts] at hT
      simp only [Bool.and_eq_true, decide_eq_true_eq] at hT
      exact ⟨cs, by rw [hT.1]⟩
  unfold b58decode at hdec
  cases hm : mapOpt b58Val ('T' :: cs) with
  | none => rw [hm] at hdec; exact absurd hdec (by simp)
  | some vals =>
    rw [hm] at hdec
    obtain ⟨hmap, hv58⟩ := mapOpt_b58Val_some hm
    obtain ⟨vals', rfl⟩ : ∃ vals', vals = 26 :: vals' := by
      rw [mapOpt, show b58Val 'T' = some 26 from rfl] at hm
      cases hmr : mapOpt b58Val cs with
      | none => rw [hmr] at hm; exact absurd hm (by simp)
      | some rv =>
        rw [hmr] at hm
        exact ⟨rv, ((Option.some.injEq _ _).mp hm).symm⟩
    have hz : ((26 :: vals').takeWhile (fun v => v == 0)).length = 0 := by
      rw [takeWhile_zero_nil (by norm_num)]
      rfl
    have hdec2 :
        some (List.replicate (((26 :: vals').takeWhile (fun v => v == 0)).length) 0 ++
          (natDigits 256 (Nat.ofDigits 58 ((26 :: vals').reverse))).reverse) = some full := hdec
    rw [hz] at hdec2
    set n := Nat.ofDigits 58 ((26 :: vals').reverse) with hn
    have hnpos : n ≠ 0 := by
      rw [hn, ofDigits_cons_reverse]
      have hppos : 0 < (58 : Nat) ^ vals'.length := Nat.pos_pow_of_pos _ (by norm_num)
      have : 0 < (58 : Nat) ^ vals'.length * 26 := Nat.mul_pos hppos (by norm_num)
      omega
    have hfull : full = (Nat.digits 256 n).reverse := by
      have h3 := (Option.some.injEq _ _).mp hdec2
      rw [← h3, natDigits_eq (by norm_num)]
      rfl
    have hdne : Nat.digits 256 n ≠ [] := Nat.digits_ne_nil_iff_ne_zero.mpr hnpos
    obtain ⟨y, t, hyt⟩ : ∃ y t, full = y :: t := by
      cases hf : full with
      | nil =>
        rw [hf] at hfull
        exact absurd hfull.symm (by simpa using hdne)
      | cons y t => exact ⟨y, t, rfl⟩
    have hy : y ≠ 0 := by
      have h1 : (Nat.digits 256 n).getLast? = some y := by
        rw [List.getLast?_eq_head?_reverse, ← hfull, hyt]
        rfl
      have h2 := Nat.getLast_digit_ne_zero 256 hnpos
      rw [List.getLast?_eq_getLast _ hdne] at h1
      rw [← (Option.some.injEq _ _).mp h1.symm] at h2
      exact fun hy0 => h2 (hy0 ▸ rfl)
    have hflt : ∀ x ∈ full, x < 256 := by
      intro x hx
      rw [hfull] at hx
      exact Nat.digits_lt_base (by norm_num) (List.mem_reverse.mp hx)
    refine ⟨?_, by rw [hyt]; simp, by rw [hyt]; simpa using hy, hflt⟩
    unfold b58encode
    rw [hyt, takeWhile_zero_nil hy, ← hyt]
    have hof : Nat.ofDigits 256 full.reverse = n := by
      rw [hfull, List.reverse_reverse, Nat.ofDigits_digits]
    rw [hof, natDigits_eq (by norm_num)]
    have hd58 : Nat.digits 58 n = (26 :: vals').reverse := by
      rw [hn]
      refine Nat.digits_ofDigits 58 (by norm_num) _ ?_ ?_
      · intro l hl
        exact hv58 l (List.mem_reverse.mp hl)
      · intro hne'
        have h1 : ((26 :: vals').reverse).getLast? = some 26 := by
          rw [List.getLast?_eq_head?_reverse, List.reverse_reverse]
          rfl
        rw [List.getLast?_eq_getLast _ hne'] at h1
        rw [(Option.some.injEq _ _).mp h1]
        norm_num
    rw [hd58, List.reverse_reverse, hmap]
    rfl

/-! ## Output-length lemmas for SHA-256 -/

theorem shaRound_length (st : List Nat) (kw : Nat) : (shaRound st kw).length = st.length := by
  unfold shaRound
  split
  · rfl
  · rfl

theorem foldl_shaRound_length (l : List Nat) :
    ∀ st : List Nat, (l.foldl shaRound st).length = st.length := by
  induction l with
  | nil => intro st; rfl
  | cons x r ih =>
    intro st
    rw [List.foldl_cons, ih, shaRound_length]

theorem shaCompress_length (h c : List Nat) : (shaCompress h c).length = h.length := by
  unfold shaCompress
  rw [List.length_zipWith, foldl_shaRound_length]
  exact Nat.min_self _

theorem shaBlocks_length :
    ∀ (fuel : Nat) (h w : List Nat), (shaBlocks fuel h w).length = h.length := by
  intro fuel
  induction fuel with
  | zero => intro h w; rfl
  | succ f ih =>
    intro h w
    rw [shaBlocks]
    by_cases hw : w.isEmpty
    · rw [if_pos hw]
    · rw [if_neg hw, ih, shaCompress_length]

theorem foldr_bytes_length (ws : List Nat) :
    (ws.foldr
      (fun w acc => w / 16777216 % 256 :: w / 65536 % 256 :: w / 256 % 256 :: w % 256 :: acc)
      []).length = 4 * ws.length := by
  induction ws with
  | nil => rfl
  | cons w r ih =>
    rw [List.foldr_cons]
    simp only [List.length_cons, ih]
    omega

theorem sha256_length (m : List Nat) : (sha256 m).length = 32 := by
  unfold sha256
  rw [foldr_bytes_length, shaBlocks_length]
  rfl

/-! ## Base58Check round trip -/

theorem b58decode_check_encode_check {b : List Nat} (hne : b ≠ [])
    (h0 : b.headD 0 ≠ 0) (hlt : ∀ x ∈ b, x < 256) :
    b58decode_check (b58encode_check b) = some b := by
  have hchk : ∀ x ∈ (sha256d b).take 4, x < 256 := fun x hx =>
    sha256_mem_lt _ x ((List.take_sublist _ _).subset hx)
  have hfl : ∀ x ∈ b ++ (sha256d b).take 4, x < 256 := by
    intro x hx
    rcases List.mem_append.mp hx with h | h
    · exact hlt x h
    · exact hchk x h
  have hfne : b ++ (sha256d b).take 4 ≠ [] := by
    intro h
    exact hne (List.append_eq_nil.mp h).1
  have hfh : (b ++ (sha256d b).take 4).headD 0 ≠ 0 := by
    cases b with
    | nil => exact absurd rfl hne
    | cons y t => simpa using h0
  have hchklen : ((sha256d b).take 4).length = 4 := by
    rw [List.length_take]
    have : (sha256d b).length = 32 := sha256_length _
    omega
  unfold b58encode_check b58decode_check
  rw [b58decode_b58encode hfne hfh hfl]
  show (if (b ++ (sha256d b).take 4).drop ((b ++ (sha256d b).take 4).length - 4) =
        (sha256d ((b ++ (sha256d b).take 4).take
          ((b ++ (sha256d b).take 4).length - 4))).take 4
      then some ((b ++ (sha256d b).take 4).take ((b ++ (sha256d b).take 4).length - 4))
      else none) = some b
  have hlen : (b ++ (sha256d b).take 4).length - 4 = b.length := by
    rw [List.length_append, hchklen]
    omega
  rw [hlen, List.take_left, List.drop_left, if_pos rfl]

/-! ## Hex codec lemmas -/

theorem isLHex_hexChar : ∀ v, v < 16 → isLHex (hexChar v) = true := by decide

theorem hexDigitVal_hexChar : ∀ v, v < 16 → hexDigitVal (hexChar v) = some v := by decide

theorem isLHex_ne_special {c : Char} (h : isLHex c = true) :
    c ≠ '+' ∧ c ≠ '-' ∧ c ≠ 'X' ∧ c ≠ '_' := by
  rcases isLHex_bounds h with ⟨h1, h2⟩ | ⟨h1, h2⟩ <;>
    exact ⟨char_ne_of_toNat (by rw [show ('+' : Char).toNat = 43 from rfl]; omega),
      char_ne_of_toNat (by rw [show ('-' : Char).toNat = 45 from rfl]; omega),
      char_ne_of_toNat (by rw [show ('X' : Char).toNat = 88 from rfl]; omega),
      char_ne_of_toNat (by rw [show ('_' : Char).toNat = 95 from rfl]; omega)⟩

theorem hexDigitVal_of_lhex {c : Char} (h : isLHex c = true) :
    ∃ v, v < 16 ∧ hexDigitVal c = some v ∧ hexChar v = c := by
  rcases isLHex_bounds h with ⟨h1, h2⟩ | ⟨h1, h2⟩
  · refine ⟨c.toNat - 48, by omega, ?_, ?_⟩
    · unfold hexDigitVal
      rw [if_pos (by
        simp only [Bool.and_eq_true, decide_eq_true_eq]
        exact ⟨charLe_iff.mpr (by rw [show ('0' : Char).toNat = 48 from rfl]; omega),
          charLe_iff.mpr (by rw [show ('9' : Char).toNat = 57 from rfl]; omega)⟩)]
    · unfold hexChar
      rw [if_pos (by omega : c.toNat - 48 < 10)]
      have he : 48 + (c.toNat - 48) = c.toNat := by omega
      rw [he, Char.ofNat_toNat]
  · refine ⟨c.toNat - 87, by omega, ?_, ?_⟩
    · unfold hexDigitVal
      rw [if_neg (by
        simp only [Bool.and_eq_true, decide_eq_true_eq, not_and]
        intro
        rw [charLe_iff, show ('9' : Char).toNat = 57 from rfl]
        omega)]
      rw [if_pos (by
        simp only [Bool.and_eq_true, decide_eq_true_eq]
        exact ⟨charLe_iff.mpr (by rw [show ('a' : Char).toNat = 97 from rfl]; omega),
          charLe_iff.mpr (by rw [show ('f' : Char).toNat = 102 from rfl]; omega)⟩)]
    · unfold hexChar
      rw [if_neg (by omega : ¬(c.toNat - 87 < 10))]
      have he : 87 + (c.toNat - 87) = c.toNat := by omega
      rw [he, Char.ofNat_toNat]

theorem bytesToHex_cons (x : Nat) (r : List Nat) :
    bytesToHex (x :: r) = hexChar (x / 16 % 16) :: hexChar (x % 16) :: bytesToHex r := rfl

theorem bytesToHex_length (l : List Nat) : (bytesToHex l).length = 2 * l.length := by
  induction l with
  | nil => rfl
  | cons x r ih =>
    rw [bytesToHex_cons]
    simp only [List.length_cons, ih]
    omega

theorem bytesToHex_mem_lhex {l : List Nat} :
    ∀ c ∈ bytesToHex l, isLHex c = true := by
  induction l with
  | nil => simp [bytesToHex]
  | cons x r ih =>
    intro c hc
    rw [bytesToHex_cons] at hc
    rcases List.mem_cons.mp hc with h | h
    · rw [h]; exact isLHex_hexChar _ (Nat.mod_lt _ (by norm_num))
    · rcases List.mem_cons.mp h with h' | h'
      · rw [h']; exact isLHex_hexChar _ (Nat.mod_lt _ (by norm_num))
      · exact ih c h'

theorem bytesFromHex_bytesToHex {l : List Nat} (hl : ∀ x ∈ l, x < 256) :
    bytesFromHex (bytesToHex l) = some l := by
  induction l with
  | nil => rfl
  | cons x r ih =>
    rw [bytesToHex_cons]
    have hx := hl x (by simp)
    have h1 : x / 16 % 16 = x / 16 := Nat.mod_eq_of_lt (by omega)
    have hsp : hexChar (x / 16 % 16) ≠ ' ' := by
      intro he
      have := isLHex_hexChar (x / 16 % 16) (Nat.mod_lt _ (by norm_num))
      rw [he] at this
      exact absurd this (by decide)
    rw [bytesFromHex, if_neg hsp]
    rw [hexDigitVal_hexChar _ (Nat.mod_lt _ (by norm_num)),
      hexDigitVal_hexChar _ (Nat.mod_lt _ (by norm_num)),
      ih (fun y hy => hl y (by simp [hy]))]
    show some ((16 * (x / 16 % 16) + x % 16) :: r) = some (x :: r)
    rw [h1, Nat.div_add_mod]

theorem bytesFromHex_of_lhex :
    ∀ {s : List Char}, (∀ c ∈ s, isLHex c = true) → s.length % 2 = 0 →
      ∃ b, bytesFromHex s = some b ∧ bytesToHex b = s ∧ (∀ x ∈ b, x < 256) ∧
        s.length = 2 * b.length := by
  intro s
  match s with
  | [] => exact fun _ _ => ⟨[], rfl, rfl, by simp, rfl⟩
  | [c] => intro _ hlen; simp at hlen
  | c₁ :: c₂ :: r =>
    intro hx hlen
    obtain ⟨v₁, hv₁lt, hv₁, hc₁⟩ := hexDigitVal_of_lhex (hx c₁ (by simp))
    obtain ⟨v₂, hv₂lt, hv₂, hc₂⟩ := hexDigitVal_of_lhex (hx c₂ (by simp))
    obtain ⟨b, hb1, hb2, hb3, hb4⟩ := bytesFromHex_of_lhex (s := r)
      (fun c hc => hx c (by simp [hc])) (by simp at hlen ⊢; omega)
    have hsp : c₁ ≠ ' ' := by
      intro he
      have := isLHex_not_ws (hx c₁ (by simp))
      rw [he] at this
      exact absurd this (by decide)
    refine ⟨(16 * v₁ + v₂) :: b, ?_, ?_, ?_, ?_⟩
    · rw [bytesFromHex, if_neg hsp, hv₁, hv₂, hb1]
      rfl
    · rw [bytesToHex_cons]
      have e1 : (16 * v₁ + v₂) / 16 % 16 = v₁ := by omega
      have e2 : (16 * v₁ + v₂) % 16 = v₂ := by omega
      rw [e1, e2, hc₁, hc₂, hb2]
    · intro y hy
      rcases List.mem_cons.mp hy with h | h
      · rw [h]; omega
      · exact hb3 y h
    · simp only [List.length_cons, hb4]
      omega

/-! ## `int(·, 16)` and cleaning on plain lowercase-hex strings -/

theorem dropWhile_ws_eq_self {u : List Char} (h : ∀ c ∈ u, isPySpace c = false) :
    u.dropWhile isPySpace = u := by
  cases u with
  | nil => rfl
  | cons c r => exact List.dropWhile_cons_of_neg (by simp [h c (by simp)])

theorem dropEnd_eq_self {u : List Char} (h : ∀ c ∈ u, isPySpace c = false) :
    dropEnd u = u := by
  unfold dropEnd
  rw [dropWhile_ws_eq_self (fun c hc => h c (List.mem_reverse.mp hc)), List.reverse_reverse]

theorem pyStrip_eq_self {u : List Char} (h : ∀ c ∈ u, isPySpace c = false) :
    pyStrip u = u := by
  unfold pyStrip
  rw [dropWhile_ws_eq_self h, dropEnd_eq_self h]

theorem hexTail_of_lhex {r : List Char} (h : ∀ c ∈ r, isLHex c = true) :
    hexTail r = true := by
  induction r with
  | nil => rfl
  | cons c t ih =>
    have hcne : c ≠ '_' := (isLHex_ne_special (h c (by simp))).2.2.2
    cases t with
    | nil =>
      show (if c = '_' then false else isHexDigitB c && hexTail []) = true
      rw [if_neg hcne, isLHex_isHexDigitB (h c (by simp))]
      rfl
    | cons d t₂ =>
      show (if c = '_' then isHexDigitB d && hexTail t₂
        else isHexDigitB c && hexTail (d :: t₂)) = true
      rw [if_neg hcne, isLHex_isHexDigitB (h c (by simp)),
        ih (fun e he => h e (by simp at he ⊢; tauto))]
      rfl

theorem strStarts_false_of_ne {p : Char} {ps s : List Char} {c : Char} {cs : List Char}
    (hs : s = c :: cs) (hne : p ≠ c) : strStarts (p :: ps) s = false := by
  rw [hs, strStarts]
  simp [hne]

theorem pyIntHex16_of_lhex {u : List Char} (hne : u ≠ [])
    (h : ∀ c ∈ u, isLHex c = true) : pyIntHex16 u = true := by
  obtain ⟨c, r, rfl⟩ : ∃ c r, u = c :: r := by
    cases u with
    | nil => exact absurd rfl hne
    | cons c r => exact ⟨c, r, rfl⟩
  have hnws : ∀ d ∈ c :: r, isPySpace d = false := fun d hd => isLHex_not_ws (h d hd)
  have hc := h c (by simp)
  unfold pyIntHex16
  rw [dropWhile_ws_eq_self hnws, dropEnd_eq_self hnws]
  rw [strStarts_false_of_ne rfl (fun he => (isLHex_ne_special hc).1 he.symm),
    strStarts_false_of_ne rfl (fun he => (isLHex_ne_special hc).2.1 he.symm)]
  simp only [Bool.or_self, Bool.false_eq_true, if_false]
  unfold pyIntBody
  have h0x : strStarts ['0', 'x'] (c :: r) = false := by
    cases r with
    | nil => rw [strStarts, strStarts]; simp
    | cons c₂ r₂ =>
      rw [strStarts]
      have : strStarts ['x'] (c₂ :: r₂) = false :=
        strStarts_false_of_ne rfl (fun he => isLHex_ne_x (h c₂ (by simp)) he.symm)
      rw [this]
      simp
  have h0X : strStarts ['0', 'X'] (c :: r) = false := by
    cases r with
    | nil => rw [strStarts, strStarts]; simp
    | cons c₂ r₂ =>
      rw [strStarts]
      have : strStarts ['X'] (c₂ :: r₂) = false :=
        strStarts_false_of_ne rfl (fun he => (isLHex_ne_special (h c₂ (by simp))).2.2.1 he.symm)
      rw [this]
      simp
  rw [h0x, h0X]
  simp only [Bool.or_self, Bool.false_eq_true, if_false]
  rw [hexBody, isLHex_isHexDigitB hc, hexTail_of_lhex (fun d hd => h d (by simp [hd]))]
  rfl

theorem pyLower_fixed_of_lhex {u : List Char} (h : ∀ c ∈ u, isLHex c = true) :
    pyLower u = u :=
  pyLower_fixed (fun c hc => isLHex_lower_fixed (h c hc))

theorem cleanHex_of_lhex {u : List Char} (h : ∀ c ∈ u, isLHex c = true) :
    cleanHex u = u := by
  unfold cleanHex
  rw [pyLower_fixed_of_lhex h,
    replace0x_eq_self (has0x_eq_false (fun c hc => isLHex_ne_x (h c hc))),
    pyStrip_eq_self (fun c hc => isLHex_not_ws (h c hc))]

theorem cleanHex_0x_of_lhex {u : List Char} (h : ∀ c ∈ u, isLHex c = true) :
    cleanHex ('0' :: 'x' :: u) = u := by
  unfold cleanHex
  have h1 : pyLower ('0' :: 'x' :: u) = '0' :: 'x' :: u := by
    unfold pyLower
    rw [List.map_cons, List.map_cons,
      show pyLowerChar '0' = '0' from rfl, show pyLowerChar 'x' = 'x' from rfl]
    have h2 := pyLower_fixed_of_lhex h
    unfold pyLower at h2
    rw [h2]
  rw [h1, replace0x, if_pos ⟨rfl, rfl⟩,
    replace0x_eq_self (has0x_eq_false (fun c hc => isLHex_ne_x (h c hc))),
    pyStrip_eq_self (fun c hc => isLHex_not_ws (h c hc))]

theorem normalize_ok_of_0x_lhex {u : List Char} (hne : u ≠ [])
    (h : ∀ c ∈ u, isLHex c = true) (hlen : u.length = 40) :
    normalize_evm_address (.str ('0' :: 'x' :: u)) = .ok u := by
  have hcond : (('0' :: 'x' :: u).isEmpty || pyStrIsSpace ('0' :: 'x' :: u)) = false := by
    simp [pyStrIsSpace, List.all_cons, show isPySpace '0' = false from rfl]
  simp only [normalize_evm_address, hcond, Bool.false_eq_true, if_false,
    cleanHex_0x_of_lhex h, pyIntHex16_of_lhex hne h, if_true, hlen, if_pos]

/-! ## Claim C10 -/

/-- C10: for every string that `validate_tron_base58_address` accepts, the
reverse round trip is the identity: `tron_to_evm` (default `add_prefix`)
followed by `evm_to_tron` with output format `"base58"` returns the original
address, the Base58Check codec's encode and decode being mutual inverses. -/
theorem C10_tron_evm_tron_identity (t : List Char)
    (h : validate_tron_base58_address (.str t) = true) :
    ∃ e, tron_to_evm (.str t) true = .ok e ∧
      evm_to_tron (.str e) ("base58").toList = .ok t := by
  have hvalid := h
  simp only [validate_tron_base58_address] at h
  have hT : strStarts ['T'] t = true := by
    by_cases hT : strStarts ['T'] t
    · exact hT
    · rw [Bool.not_eq_true] at hT
      rw [hT] at h
      simp at h
  rw [hT] at h
  simp only [Bool.not_true, Bool.false_eq_true, if_false] at h
  cases hdc : b58decode_check t with
  | none =>
    rw [hdc] at h
    simp at h
  | some d =>
    rw [hdc] at h
    simp only [Bool.and_eq_true, beq_iff_eq] at h
    obtain ⟨hd21, hd65⟩ := h
    have hbd : ∃ full, b58decode t = some full ∧
        full.drop (full.length - 4) = (sha256d (full.take (full.length - 4))).take 4 ∧
        d = full.take (full.length - 4) := by
      unfold b58decode_check at hdc
      cases hb : b58decode t with
      | none => rw [hb] at hdc; exact absurd hdc (by simp)
      | some full =>
        rw [hb] at hdc
        have hdc2 : (if full.drop (full.length - 4) =
              (sha256d (full.take (full.length - 4))).take 4
            then some (full.take (full.length - 4)) else none) = some d := hdc
        split_ifs at hdc2 with hcond
        · exact ⟨full, rfl, hcond, ((Option.some.injEq _ _).mp hdc2).symm⟩
    obtain ⟨full, hbdec, hchk, hdfull⟩ := hbd
    obtain ⟨henc, hfne, hfh, hflt⟩ := b58encode_b58decode hbdec hT
    have hdlt : ∀ x ∈ d, x < 256 := by
      rw [hdfull]
      exact fun x hx => hflt x ((List.take_sublist _ _).subset hx)
    obtain ⟨d', hd'⟩ : ∃ d', d = 65 :: d' := by
      cases hd : d with
      | nil => rw [hd] at hd21; simp at hd21
      | cons y d' =>
        rw [hd] at hd65
        rw [List.getD_cons_zero] at hd65
        exact ⟨d', by rw [hd65]⟩
    have hd'lt : ∀ x ∈ d', x < 256 := fun x hx => hdlt x (by rw [hd']; simp [hx])
    have hd'len : d'.length = 20 := by
      rw [hd'] at hd21
      simpa using hd21
    have hcond1 : (t.isEmpty || pyStrIsSpace t) = false := by
      obtain ⟨cs, rfl⟩ : ∃ cs, t = 'T' :: cs := by
        cases t with
        | nil => exact absurd hT (by simp [strStarts])
        | cons c cs =>
          rw [strStarts] at hT
          simp only [Bool.and_eq_true, decide_eq_true_eq] at hT
          exact ⟨cs, by rw [hT.1]⟩
      simp [pyStrIsSpace, List.all_cons, show isPySpace 'T' = false from rfl]
    have htron : tron_to_evm (.str t) true =
        .ok ('0' :: 'x' :: (bytesToHex d).drop 2) := by
      simp only [tron_to_evm, hcond1, Bool.false_eq_true, if_false, hT, if_true,
        hvalid, Bool.not_true, hdc]
    have hbth : bytesToHex d = '4' :: '1' :: bytesToHex d' := by
      rw [hd', bytesToHex_cons,
        show hexChar (65 / 16 % 16) = '4' by decide,
        show hexChar (65 % 16) = '1' by decide]
    have hulhex : ∀ c ∈ bytesToHex d', isLHex c = true := bytesToHex_mem_lhex
    have hulen : (bytesToHex d').length = 40 := by
      rw [bytesToHex_length, hd'len]
    have hune : bytesToHex d' ≠ [] := by
      intro h0
      rw [h0] at hulen
      simp at hulen
    have hdrop : (bytesToHex d).drop 2 = bytesToHex d' := by
      rw [hbth]
      rfl
    have hnorm : normalize_evm_address (.str ('0' :: 'x' :: bytesToHex d')) =
        .ok (bytesToHex d') :=
      normalize_ok_of_0x_lhex hune hulhex hulen
    have hfromhex : bytesFromHex ('4' :: '1' :: bytesToHex d') = some d := by
      rw [← hbth]
      exact bytesFromHex_bytesToHex hdlt
    have hencchk : b58encode_check d = t := by
      unfold b58encode_check
      have hfull2 : d ++ (sha256d d).take 4 = full := by
        rw [hdfull]
        conv_rhs => rw [← List.take_append_drop (full.length - 4) full]
        rw [hchk]
      rw [hfull2, henc]
    refine ⟨'0' :: 'x' :: bytesToHex d', by rw [htron, hdrop], ?_⟩
    have hfmtcond : ¬(("base58").toList ≠ ("base58").toList ∧
        ("base58").toList ≠ ("hex").toList) := by
      rintro ⟨h1, -⟩
      exact h1 rfl
    simp only [evm_to_tron, if_neg hfmtcond, hnorm]
    rw [if_neg (by decide : ¬("base58").toList = ("hex").toList), hfromhex]
    show Except.ok (b58encode_check d) = Except.ok t
    rw [hencchk]

/-! ## The leading `'T'` of encoded TRON addresses -/

theorem tron_range_low : 26 * 58 ^ 33 ≤ 65 * 256 ^ 24 := by norm_num

theorem tron_range_high : 66 * 256 ^ 24 ≤ 27 * 58 ^ 33 := by norm_num

theorem b58encode_check_head_T {r : List Nat} (hlen : r.length = 20)
    (hlt : ∀ y ∈ 65 :: r, y < 256) :
    ∃ cs, b58encode_check (65 :: r) = 'T' :: cs := by
  have hchklen : ((sha256d (65 :: r)).take 4).length = 4 := by
    have h0 : (sha256d (65 :: r)).length = 32 := sha256_length (sha256 (65 :: r))
    rw [List.length_take, h0]
    rfl
  have hchklt : ∀ y ∈ (sha256d (65 :: r)).take 4, y < 256 := fun y hy =>
    sha256_mem_lt _ y ((List.take_sublist _ _).subset hy)
  have htail_len : (r ++ (sha256d (65 :: r)).take 4).length = 24 := by
    rw [List.length_append, hlen, hchklen]
  have htail_lt : ∀ y ∈ r ++ (sha256d (65 :: r)).take 4, y < 256 := by
    intro y hy
    rcases List.mem_append.mp hy with h | h
    · exact hlt y (by simp [h])
    · exact hchklt y h
  have hn : Nat.ofDigits 256 ((65 :: (r ++ (sha256d (65 :: r)).take 4)).reverse) =
      Nat.ofDigits 256 ((r ++ (sha256d (65 :: r)).take 4).reverse) + 256 ^ 24 * 65 := by
    rw [ofDigits_cons_reverse, htail_len]
  have htlt : Nat.ofDigits 256 ((r ++ (sha256d (65 :: r)).take 4).reverse) < 256 ^ 24 := by
    have h1 := ofDigits_lt (l := (r ++ (sha256d (65 :: r)).take 4).reverse)
      (fun y hy => htail_lt y (List.mem_reverse.mp hy)) (by norm_num)
    rw [List.length_reverse, htail_len] at h1
    exact h1
  obtain ⟨n, hndef⟩ : ∃ m,
      Nat.ofDigits 256 ((65 :: (r ++ (sha256d (65 :: r)).take 4)).reverse) = m :=
    ⟨_, rfl⟩
  rw [hndef] at hn
  have hlow : 26 * 58 ^ 33 ≤ n := by
    rw [hn]
    have h1 : 65 * 256 ^ 24 = 256 ^ 24 * 65 := by ring
    have h2 := tron_range_low
    omega
  have hhigh : n < 27 * 58 ^ 33 := by
    rw [hn]
    have h1 : 256 ^ 24 * 65 + 256 ^ 24 = 66 * 256 ^ 24 := by ring
    have h2 := tron_range_high
    omega
  have hlast := digits_getLast?_of_bound (b := 58) (by norm_num) 33 26 n
    (by norm_num) (by norm_num) hlow hhigh
  obtain ⟨z, tl, hz⟩ : ∃ z tl, (Nat.digits 58 n).reverse = z :: tl := by
    cases hh : (Nat.digits 58 n).reverse with
    | nil =>
      have h3 : Nat.digits 58 n = [] := by simpa using hh
      rw [h3] at hlast
      exact absurd hlast (by simp)
    | cons z tl => exact ⟨z, tl, rfl⟩
  have hz26 : z = 26 := by
    have h1 : (Nat.digits 58 n).getLast? = some z := by
      rw [List.getLast?_eq_head?_reverse, hz]
      rfl
    rw [hlast] at h1
    exact ((Option.some.injEq _ _).mp h1).symm
  refine ⟨tl.map b58Digit, ?_⟩
  unfold b58encode_check b58encode
  rw [List.cons_append, takeWhile_zero_nil (by norm_num), natDigits_eq (by norm_num),
    hndef, hz, List.map_cons, hz26]
  rfl

/-! ## Claim C1 -/

theorem validate_tron_hex_of_lhex {n : List Char} (h : ∀ c ∈ n, isLHex c = true)
    (hlen : n.length = 40) :
    validate_tron_hex_address (.str ('4' :: '1' :: n)) = true := by
  have hall : ∀ c ∈ '4' :: '1' :: n, isLHex c = true := by
    intro c hc
    rcases List.mem_cons.mp hc with h1 | hc
    · rw [h1]; decide
    · rcases List.mem_cons.mp hc with h1 | hc
      · rw [h1]; decide
      · exact h c hc
  simp only [validate_tron_hex_address, cleanHex_of_lhex hall]
  rw [show strStarts ['4', '1'] ('4' :: '1' :: n) = true by simp [strStarts]]
  simp only [Bool.not_true, Bool.false_eq_true, if_false]
  rw [if_neg (by simp [hlen] : ¬('4' :: '1' :: n).length ≠ 42)]
  exact pyIntHex16_of_lhex (by simp) hall

/-- C1 (amended): the round trip holds for every address accepted by
`normalize_evm_address` whose normalized form consists solely of lowercase
hex digits `[0-9a-f]` (the amendment excludes the inputs admitted only
through the `int(·, 16)` slip, cf. the counterexample): for both output
formats, converting to TRON form and back with default `add_prefix` returns
`"0x"` + the normalized address. -/
theorem C1_round_trip_amended (a : PyVal) (n : List Char)
    (h : normalize_evm_address a = .ok n) (hhex : ∀ c ∈ n, isLHex c = true) :
    (evm_to_tron a ("hex").toList = .ok ('4' :: '1' :: n) ∧
      tron_to_evm (.str ('4' :: '1' :: n)) true = .ok ('0' :: 'x' :: n)) ∧
    (∃ t, evm_to_tron a ("base58").toList = .ok t ∧
      tron_to_evm (.str t) true = .ok ('0' :: 'x' :: n)) := by
  have hlen : n.length = 40 := by
    match a with
    | .nonString => exact absurd h (by simp [normalize_nonstring])
    | .str s => exact (normalize_ok_elim h).2.2
  have hall : ∀ c ∈ '4' :: '1' :: n, isLHex c = true := by
    intro c hc
    rcases List.mem_cons.mp hc with h1 | hc
    · rw [h1]; decide
    · rcases List.mem_cons.mp hc with h1 | hc
      · rw [h1]; decide
      · exact hhex c hc
  constructor
  · constructor
    · have hfmt : ¬(("hex").toList ≠ ("base58").toList ∧
          ("hex").toList ≠ ("hex").toList) := by
        rintro ⟨-, h2⟩
        exact h2 rfl
      simp only [evm_to_tron, if_neg hfmt, h, if_pos rfl, if_true]
    · have hcond1 : (('4' :: '1' :: n).isEmpty || pyStrIsSpace ('4' :: '1' :: n)) = false := by
        simp [pyStrIsSpace, List.all_cons, show isPySpace '4' = false from rfl]
      have hTfalse : strStarts ['T'] ('4' :: '1' :: n) = false :=
        strStarts_false_of_ne rfl (by decide)
      have hval := validate_tron_hex_of_lhex hhex hlen
      simp only [tron_to_evm, hcond1, Bool.false_eq_true, if_false, hTfalse, hval,
        Bool.not_true, cleanHex_of_lhex hall, if_true]
      rfl
  · obtain ⟨b, hb1, hb2, hb3, hb4⟩ :=
      bytesFromHex_of_lhex hall (by simp [hlen])
    have hblen : b.length = 21 := by
      simp only [List.length_cons, hlen] at hb4
      omega
    obtain ⟨b', hb'⟩ : ∃ b', b = 65 :: b' := by
      cases hb : b with
      | nil => rw [hb] at hblen; simp at hblen
      | cons x b' =>
        rw [hb, bytesToHex_cons] at hb2
        have hx1 : hexChar (x / 16 % 16) = '4' := by injection hb2
        have hrest := hb2
        injection hrest with h1 hrest
        injection hrest with hx2 hrest2
        have hv1 := hexDigitVal_hexChar (x / 16 % 16) (Nat.mod_lt _ (by norm_num))
        have hv2 := hexDigitVal_hexChar (x % 16) (Nat.mod_lt _ (by norm_num))
        rw [hx1, show hexDigitVal '4' = some 4 by decide] at hv1
        rw [hx2, show hexDigitVal '1' = some 1 by decide] at hv2
        have e1 : 4 = x / 16 % 16 := by injection hv1
        have e2 : 1 = x % 16 := by injection hv2
        have hxlt : x < 256 := hb3 x (by rw [hb]; simp)
        have hx65 : x = 65 := by omega
        exact ⟨b', by rw [hx65]⟩
    have hb'len : b'.length = 20 := by
      rw [hb'] at hblen
      simpa using hblen
    have hb'resthex : bytesToHex b' = n := by
      rw [hb', bytesToHex_cons] at hb2
      injection hb2 with h1 hrest
      injection hrest with h2 hrest2
    have hblt : ∀ y ∈ (65 : Nat) :: b', y < 256 := by
      rw [← hb']
      exact hb3
    obtain ⟨cs, hTeq⟩ := b58encode_check_head_T hb'len hblt
    have hstarT : strStarts ['T'] (b58encode_check (65 :: b')) = true := by
      rw [hTeq]
      simp [strStarts]
    have hdecchk : b58decode_check (b58encode_check (65 :: b')) = some (65 :: b') :=
      b58decode_check_encode_check (by simp) (by simp) hblt
    have hval58 : validate_tron_base58_address (.str (b58encode_check (65 :: b'))) = true := by
      simp only [validate_tron_base58_address, hstarT, Bool.not_true, Bool.false_eq_true,
        if_false, hdecchk]
      simp [hb'len]
    have hcond1 : ((b58encode_check (65 :: b')).isEmpty ||
        pyStrIsSpace (b58encode_check (65 :: b'))) = false := by
      rw [hTeq]
      simp [pyStrIsSpace, List.all_cons, show isPySpace 'T' = false from rfl]
    have htron : tron_to_evm (.str (b58encode_check (65 :: b'))) true =
        .ok ('0' :: 'x' :: n) := by
      simp only [tron_to_evm, hcond1, Bool.false_eq_true, if_false, hstarT, if_true,
        hval58, Bool.not_true, hdecchk]
      rw [bytesToHex_cons,
        show hexChar ((65 : Nat) / 16 % 16) = '4' by decide,
        show hexChar ((65 : Nat) % 16) = '1' by decide, hb'resthex]
      rfl
    refine ⟨b58encode_check (65 :: b'), ?_, htron⟩
    have hfmt2 : ¬(("base58").toList ≠ ("base58").toList ∧
        ("base58").toList ≠ ("hex").toList) := by
      rintro ⟨h1, -⟩
      exact h1 rfl
    simp only [evm_to_tron, if_neg hfmt2, h]
    rw [if_neg (by decide : ¬("base58").toList = ("hex").toList), hb1, hb']

/-- C1 counterexample: the claim as stated — quantified over every string
accepted by `normalize_evm_address` — fails on the code.  The 40-character
input below (a plus sign followed by 39 hex digits) is accepted by
`normalize_evm_address` (Python `int(·, 16)` allows the sign), but the
round trip through the `"hex"` format raises instead of returning
`"0x"` + the normalized address: the TRON-hex validator rejects
`"41+123…"` because of the embedded sign. -/
theorem C1_round_trip_counterexample :
    normalize_evm_address
        (.str ("+123456789abcdef123456789abcdef123456789").toList) =
      .ok ("+123456789abcdef123456789abcdef123456789").toList ∧
    evm_to_tron (.str ("+123456789abcdef123456789abcdef123456789").toList)
        ("hex").toList =
      .ok ("41+123456789abcdef123456789abcdef123456789").toList ∧
    tron_to_evm (.str ("41+123456789abcdef123456789abcdef123456789").toList) true =
      .error .badTronHex :=
  ⟨rfl, rfl, rfl⟩

/-- Witness for the amended C1 at the spec's example address. -/
theorem C1_round_trip_amended_witness :
    (evm_to_tron (.str ("0x123456789abcdef123456789abcdef123456789a").toList)
        ("hex").toList =
      .ok ('4' :: '1' :: ("123456789abcdef123456789abcdef123456789a").toList) ∧
      tron_to_evm
          (.str ('4' :: '1' :: ("123456789abcdef123456789abcdef123456789a").toList))
          true =
        .ok ('0' :: 'x' :: ("123456789abcdef123456789abcdef123456789a").toList)) ∧
    (∃ t, evm_to_tron (.str ("0x123456789abcdef123456789abcdef123456789a").toList)
        ("base58").toList = .ok t ∧
      tron_to_evm (.str t) true =
        .ok ('0' :: 'x' :: ("123456789abcdef123456789abcdef123456789a").toList)) :=
  C1_round_trip_amended _ _ (by rfl) (by decide)

/-- Concrete valid TRON Base58Check address for the C10 witness: the model
encoding of the 21-byte payload `0x41` followed by twenty zero bytes. -/
def c10input : List Char := b58encode_check (65 :: List.replicate 20 0)

/-- Witness for C10 at a concrete valid TRON Base58Check address. -/
theorem C10_tron_evm_tron_identity_witness :
    ∃ e, tron_to_evm (.str c10input) true = .ok e ∧
      evm_to_tron (.str e) ("base58").toList = .ok c10input :=
  C10_tron_evm_tron_identity c10input (by decide)
